import Mathlib

open Matrix

/-!
Verification development for the implicit-feedback recommender script
(543projec.py).  The four core components are shallowly embedded over
rational-valued matrices indexed by `Fin` dimensions:

* the train/test splitter `makeTrain` (source: `make_train`),
* one outer iteration of the weighted ALS solver `alsOuterIteration`
  (source: `implicit_weighted_ALS`),
* the ranking evaluator `calcMeanAuc` (source: `calc_mean_auc` with
  `auc_score`),
* the recommendation generator `recItems` (source: `rec_items`).

Library calls of the script are embedded by their semantics: the
process-wide `random` generator is threaded explicitly as a natural-number
state and its `random.sample` becomes `sampleWR`; `scipy.sparse.linalg.spsolve`
becomes the exact rational linear solver `solveLS`; `sklearn.metrics`
`roc_curve`/`auc` become `aucScore` (the Mann-Whitney form of AUC with ties
counted one half, `none` when only one label class is present, modelling the
NaN that sklearn returns there); `numpy` float NaN propagation through
`np.mean` is modelled with `Option`.
-/

/-! ### Process-wide pseudo-random generator (models the `random` module) -/

/-- One step of the deterministic process-wide pseudo-random generator.
The script relies on Python's seeded Mersenne Twister only through
`random.seed`/`random.sample`; the claims need a deterministic seeded
stream, modelled here by a 64-bit linear congruential step. -/
def lcgNext (s : ℕ) : ℕ := (6364136223846793005 * s + 1442695040888963407) % 2 ^ 64

/-- State of the global generator right after `random.seed(k)`. -/
def seedState (k : ℕ) : ℕ := k

/-- Sampling without replacement (models `random.sample(pop, k)`): repeatedly
draw an index below the current population size from the generator and remove
the chosen element.  Returns the drawn elements together with the advanced
generator state. -/
def sampleWR {α : Type} : ℕ → ℕ → List α → List α × ℕ
  | 0, s, _ => ([], s)
  | _ + 1, s, [] => ([], s)
  | k + 1, s, a :: rest =>
    ((a :: rest).getD (lcgNext s % (a :: rest).length) a ::
        (sampleWR k (lcgNext s) ((a :: rest).eraseIdx (lcgNext s % (a :: rest).length))).1,
      (sampleWR k (lcgNext s) ((a :: rest).eraseIdx (lcgNext s % (a :: rest).length))).2)

/-! ### Train/test splitter (source: `make_train`, lines 61-99) -/

/-- Binarization `test_set[test_set != 0] = 1`: entries of a copy of the ratings matrix
that are non-zero are overwritten with `1`; the remaining entries are left
as they are. -/
def binarizeMatrix {U I : ℕ} (R : Matrix (Fin U) (Fin I) ℚ) : Matrix (Fin U) (Fin I) ℚ :=
  Matrix.of fun u i => if R u i ≠ 0 then 1 else R u i

/-- The list of (user, item) index pairs carrying a non-zero rating, in
row-major order (`training_set.nonzero()` zipped into pairs). -/
def nonzeroPairs {U I : ℕ} (R : Matrix (Fin U) (Fin I) ℚ) : List (Fin U × Fin I) :=
  (List.finRange U ×ˢ List.finRange I).filter fun q => R q.1 q.2 ≠ 0

/-- The sample size `num_samples = int(np.ceil(pct_test * len(nonzero_pairs)))`. -/
def numMaskSamples {U I : ℕ} (R : Matrix (Fin U) (Fin I) ℚ) (pct : ℚ) : ℕ :=
  ⌈pct * ((nonzeroPairs R).length : ℚ)⌉₊

/-- The mask sample drawn by `make_train`: `random.seed(0)` followed by
`random.sample(nonzero_pairs, num_samples)`. -/
def drawnSample {U I : ℕ} (R : Matrix (Fin U) (Fin I) ℚ) (pct : ℚ) : List (Fin U × Fin I) :=
  (sampleWR (numMaskSamples R pct) (seedState 0) (nonzeroPairs R)).1

/-- Result of `make_train`: the masked training matrix, the binarized test
matrix, the de-duplicated altered-user list, and the state in which the call
leaves the process-wide generator. -/
structure SplitResult (U I : ℕ) where
  training : Matrix (Fin U) (Fin I) ℚ
  testSet : Matrix (Fin U) (Fin I) ℚ
  altered : List (Fin U)
  rngState : ℕ

/-- The splitter `make_train(ratings, pct_test)`.  The function receives the current state
`s` of the process-wide generator (Python's global `random` state) and begins
with `random.seed(0)`, which replaces that state by the constant seed-0 state;
it then draws the mask sample, zeroes the sampled positions in a copy of the
ratings (`eliminate_zeros` only compacts storage and does not change any
entry), and returns `list(set(user_inds))` as the altered users. -/
def makeTrain {U I : ℕ} (_s : ℕ) (R : Matrix (Fin U) (Fin I) ℚ) (pct : ℚ) : SplitResult U I :=
  let s0 := seedState 0
  let smpRes := sampleWR (numMaskSamples R pct) s0 (nonzeroPairs R)
  let smp := smpRes.1
  { training := Matrix.of fun u i => if (u, i) ∈ smp then 0 else R u i
    testSet := binarizeMatrix R
    altered := (smp.map Prod.fst).dedup
    rngState := smpRes.2 }

/-- Number of non-zero entries of a matrix. -/
def nnz {U I : ℕ} (M : Matrix (Fin U) (Fin I) ℚ) : ℕ :=
  (Finset.univ.filter fun q : Fin U × Fin I => M q.1 q.2 ≠ 0).card

/-! ### Weighted ALS solver (source: `implicit_weighted_ALS`, lines 104-184) -/

/-- Exact solver for a square rational linear system (models
`scipy.sparse.linalg.spsolve`): the unique solution `A⁻¹ b` when `A` is
invertible, and the zero vector on a singular system. -/
def solveLS {n : ℕ} (A : Matrix (Fin n) (Fin n) ℚ) (b : Fin n → ℚ) : Fin n → ℚ :=
  if A.det = 0 then fun _ => 0 else A.det⁻¹ • A.adjugate.mulVec b

/-- Row `u` of the stored confidence matrix `conf = alpha * training_set`
(`conf[u, :]` converted to a dense vector). -/
def confRow {U I : ℕ} (alphaV : ℚ) (R : Matrix (Fin U) (Fin I) ℚ) (u : Fin U) : Fin I → ℚ :=
  fun i => alphaV * R u i

/-- Column `i` of the stored confidence matrix, in row format
(`conf[:, i].T` converted to a dense vector). -/
def confCol {U I : ℕ} (alphaV : ℚ) (R : Matrix (Fin U) (Fin I) ℚ) (i : Fin I) : Fin U → ℚ :=
  fun u => alphaV * R u i

/-- Binarization `pref = conf_samp.copy(); pref[pref != 0] = 1`: non-zero entries become
`1`, the others are left as they are. -/
def binVec {n : ℕ} (c : Fin n → ℚ) : Fin n → ℚ := fun j => if c j ≠ 0 then 1 else c j

/-- One outer ALS iteration, exactly as the source performs it: `yTy` and
`xTx` are both computed at the beginning of the iteration from the incoming
factor matrices; the user loop then solves
`(yTy + Yᵗ(Cu−I)Y + lambda I) x_u = Yᵗ((Cu−I)+I) p_u` for every user and
writes the rows of the new `X`; the item loop solves the analogous system
built from the iteration-start `xTx` and the just-written `X`.  (During the
user loop no row solve reads `X`, and during the item loop no row solve reads
`Y`, so the source's in-place row writes are equivalent to these whole-matrix
updates.) -/
def alsOuterIteration {U I k : ℕ} (lam alphaV : ℚ) (R : Matrix (Fin U) (Fin I) ℚ)
    (X : Matrix (Fin U) (Fin k) ℚ) (Y : Matrix (Fin I) (Fin k) ℚ) :
    Matrix (Fin U) (Fin k) ℚ × Matrix (Fin I) (Fin k) ℚ :=
  let yTy := Yᵀ * Y
  let xTx := Xᵀ * X
  let X' : Matrix (Fin U) (Fin k) ℚ := Matrix.of fun u =>
    solveLS (yTy + Yᵀ * Matrix.diagonal (confRow alphaV R u) * Y
        + lam • (1 : Matrix (Fin k) (Fin k) ℚ))
      ((Yᵀ * (Matrix.diagonal (confRow alphaV R u) + 1)).mulVec (binVec (confRow alphaV R u)))
  let Y' : Matrix (Fin I) (Fin k) ℚ := Matrix.of fun i =>
    solveLS (xTx + X'ᵀ * Matrix.diagonal (confCol alphaV R i) * X'
        + lam • (1 : Matrix (Fin k) (Fin k) ℚ))
      ((X'ᵀ * (Matrix.diagonal (confCol alphaV R i) + 1)).mulVec (binVec (confCol alphaV R i)))
  (X', Y')

/-- The full solver `implicit_weighted_ALS`: iterate the outer iteration a
fixed number of times and transpose the item factors at the end.  The seeded
standard-normal initialization (`np.random.RandomState(seed).normal`) is an
external library draw; the drawn initial factor matrices are passed in as
arguments. -/
def implicitWeightedALS {U I k : ℕ} (lam alphaV : ℚ) (iters : ℕ)
    (R : Matrix (Fin U) (Fin I) ℚ) (initX : Matrix (Fin U) (Fin k) ℚ)
    (initY : Matrix (Fin I) (Fin k) ℚ) :
    Matrix (Fin U) (Fin k) ℚ × Matrix (Fin k) (Fin I) ℚ :=
  let final := (fun P => alsOuterIteration lam alphaV R P.1 P.2)^[iters] (initX, initY)
  (final.1, final.2ᵀ)

/-- The whole-matrix user pass: for each user, the solution of the per-user
normal-equations system built from the fixed item factors `Y`. -/
def userPassMat {U I k : ℕ} (lam alphaV : ℚ) (R : Matrix (Fin U) (Fin I) ℚ)
    (Y : Matrix (Fin I) (Fin k) ℚ) : Matrix (Fin U) (Fin k) ℚ :=
  Matrix.of fun u =>
    solveLS (Yᵀ * Y + Yᵀ * Matrix.diagonal (confRow alphaV R u) * Y
        + lam • (1 : Matrix (Fin k) (Fin k) ℚ))
      ((Yᵀ * (Matrix.diagonal (confRow alphaV R u) + 1)).mulVec (binVec (confRow alphaV R u)))

/-- The whole-matrix item pass, with the `xTx` Gram term supplied separately
from the user-factor matrix `X` used in the confidence-weighted terms. -/
def itemPassFrom {U I k : ℕ} (xTx : Matrix (Fin k) (Fin k) ℚ) (lam alphaV : ℚ)
    (R : Matrix (Fin U) (Fin I) ℚ) (X : Matrix (Fin U) (Fin k) ℚ) :
    Matrix (Fin I) (Fin k) ℚ :=
  Matrix.of fun i =>
    solveLS (xTx + Xᵀ * Matrix.diagonal (confCol alphaV R i) * X
        + lam • (1 : Matrix (Fin k) (Fin k) ℚ))
      ((Xᵀ * (Matrix.diagonal (confCol alphaV R i) + 1)).mulVec (binVec (confCol alphaV R i)))

/-- Modelled from the spec's words (section 4.2, step 3: "Compute
`XtX = Xᵗ·X` once for the whole item pass", placed after the user pass): a
variant outer iteration whose item pass uses the Gram matrix of the
just-updated `X` instead of the iteration-start one.  Only used to compare
the source's behaviour against the specified one. -/
def alsOuterIterationFreshXtX {U I k : ℕ} (lam alphaV : ℚ) (R : Matrix (Fin U) (Fin I) ℚ)
    (_X : Matrix (Fin U) (Fin k) ℚ) (Y : Matrix (Fin I) (Fin k) ℚ) :
    Matrix (Fin U) (Fin k) ℚ × Matrix (Fin I) (Fin k) ℚ :=
  let X' := userPassMat lam alphaV R Y
  (X', itemPassFrom (X'ᵀ * X') lam alphaV R X')

/-! ### Ranking evaluator (source: `auc_score` and `calc_mean_auc`,
lines 195-258) -/

/-- Area under the ROC curve of a list of scores against binary labels
(models `metrics.roc_curve` followed by `metrics.auc`): the Mann-Whitney
statistic with ties counted one half — which is exactly what the trapezoidal
area under the empirical ROC curve evaluates to on finite data.  When only
one label class is present sklearn's result is NaN, modelled as `none`. -/
def aucScore (scores labels : List ℚ) : Option ℚ :=
  let sl := scores.zip labels
  let pos := (sl.filter fun q => q.2 = 1).map Prod.fst
  let neg := (sl.filter fun q => q.2 ≠ 1).map Prod.fst
  if pos.length = 0 ∨ neg.length = 0 then none
  else some
    (((pos ×ˢ neg).map fun q =>
        if q.2 < q.1 then (1 : ℚ) else if q.1 = q.2 then 1 / 2 else 0).sum
      / (pos.length * neg.length))

/-- Rounding `float('%.3f' % x)` to three decimal places. -/
def round3 (q : ℚ) : ℚ := (round (q * 1000) : ℚ) / 1000

/-- Mean `np.mean` over a list of possibly-NaN values: NaN (`none`) on the empty
list, NaN as soon as one entry is NaN, and the arithmetic mean otherwise. -/
def npMean (l : List (Option ℚ)) : Option ℚ :=
  if l.length = 0 then none
  else if l.any fun o => o.isNone then none
  else some ((l.map fun o => o.getD 0).sum / (l.length : ℚ))

/-- The candidate columns of an altered user: the item indices where the
user's training row is zero (`np.where(training_row == 0)`). -/
def candidateItems {U I : ℕ} (training : Matrix (Fin U) (Fin I) ℚ) (u : Fin U) : List (Fin I) :=
  (List.finRange I).filter fun i => training u i = 0

/-- The evaluator `calc_mean_auc(training_set, altered_users,
[user_vecs, item_vecs.T], test_set)`.  `itemF` is the item-factor matrix in `num_items × rank` shape,
exactly as `predictions[1]` is passed at the call site.  For every altered
user the full predicted row is formed and then restricted, like the test row
and the popularity row, to the columns where the training row is zero; the
two AUC lists are averaged with `np.mean` and rounded. -/
def calcMeanAuc {U I k : ℕ} (training : Matrix (Fin U) (Fin I) ℚ) (altered : List (Fin U))
    (userF : Matrix (Fin U) (Fin k) ℚ) (itemF : Matrix (Fin I) (Fin k) ℚ)
    (testSet : Matrix (Fin U) (Fin I) ℚ) : Option ℚ × Option ℚ :=
  let popItems : Fin I → ℚ := fun i => ∑ v, testSet v i
  let store := altered.map fun u =>
    let zeroInds := (List.finRange I).filter fun i => training u i = 0
    let predFull : Fin I → ℚ := fun i => ∑ f, userF u f * itemF i f
    aucScore (zeroInds.map predFull) (zeroInds.map fun i => testSet u i)
  let popStore := altered.map fun u =>
    let zeroInds := (List.finRange I).filter fun i => training u i = 0
    aucScore (zeroInds.map popItems) (zeroInds.map fun i => testSet u i)
  (Option.map round3 (npMean store), Option.map round3 (npMean popStore))

/-- Modelled from the spec's words (sections 4.3 and 7: a user whose masked
candidate set has a single label class is "excluded from the mean rather than
treated as zero"): the aggregate means taken over only the altered users
whose AUC is defined.  Only used to compare the source's behaviour against
the specified one. -/
def calcMeanAucDefinedOnly {U I k : ℕ} (training : Matrix (Fin U) (Fin I) ℚ)
    (altered : List (Fin U)) (userF : Matrix (Fin U) (Fin k) ℚ)
    (itemF : Matrix (Fin I) (Fin k) ℚ) (testSet : Matrix (Fin U) (Fin I) ℚ) :
    Option ℚ × Option ℚ :=
  let popItems : Fin I → ℚ := fun i => ∑ v, testSet v i
  let store := (altered.map fun u =>
    let zeroInds := (List.finRange I).filter fun i => training u i = 0
    let predFull : Fin I → ℚ := fun i => ∑ f, userF u f * itemF i f
    aucScore (zeroInds.map predFull) (zeroInds.map fun i => testSet u i)).reduceOption
  let popStore := (altered.map fun u =>
    let zeroInds := (List.finRange I).filter fun i => training u i = 0
    aucScore (zeroInds.map popItems) (zeroInds.map fun i => testSet u i)).reduceOption
  ((if store.length = 0 then none else some (round3 (store.sum / (store.length : ℚ)))),
   (if popStore.length = 0 then none else some (round3 (popStore.sum / (popStore.length : ℚ)))))

/-! ### Recommendation generator (source: `rec_items`, lines 300-349) -/

/-- The vector `pref_vec` of `rec_items`: the training row plus one, with every entry
that exceeds one (an already-purchased item) overwritten with zero. -/
def prefMask {U I : ℕ} (training : Matrix (Fin U) (Fin I) ℚ) (u : Fin U) : Fin I → ℚ :=
  fun i => if training u i + 1 > 1 then 0 else training u i + 1

/-- The vector `rec_vector` of `rec_items`: the user's factor row dotted against all
item factors (`item_vecs` in `rank × num_items` shape, as returned by the
solver). -/
def rawScores {U I k : ℕ} (userF : Matrix (Fin U) (Fin k) ℚ)
    (itemF : Matrix (Fin k) (Fin I) ℚ) (u : Fin U) : Fin I → ℚ :=
  fun i => ∑ f, userF u f * itemF f i

/-- The raw score vector as the dense array `MinMaxScaler` sees. -/
def scoreVals {U I k : ℕ} (userF : Matrix (Fin U) (Fin k) ℚ)
    (itemF : Matrix (Fin k) (Fin I) ℚ) (u : Fin U) : List ℚ :=
  (List.finRange I).map (rawScores userF itemF u)

/-- The minimum of the raw scores (`MinMaxScaler`'s `data_min_`). -/
def scoreMin {U I k : ℕ} (userF : Matrix (Fin U) (Fin k) ℚ)
    (itemF : Matrix (Fin k) (Fin I) ℚ) (u : Fin U) : ℚ :=
  (scoreVals userF itemF u).foldr min ((scoreVals userF itemF u).headD 0)

/-- The maximum of the raw scores (`MinMaxScaler`'s `data_max_`). -/
def scoreMax {U I k : ℕ} (userF : Matrix (Fin U) (Fin k) ℚ)
    (itemF : Matrix (Fin k) (Fin I) ℚ) (u : Fin U) : ℚ :=
  (scoreVals userF itemF u).foldr max ((scoreVals userF itemF u).headD 0)

/-- The vector `rec_vector_scaled` of `rec_items`: min-max rescaling of the raw scores
to [0, 1] (`MinMaxScaler` maps a constant vector to zero). -/
def scaledScores {U I k : ℕ} (userF : Matrix (Fin U) (Fin k) ℚ)
    (itemF : Matrix (Fin k) (Fin I) ℚ) (u : Fin U) : Fin I → ℚ :=
  fun i =>
    if scoreMax userF itemF u = scoreMin userF itemF u then 0
    else (rawScores userF itemF u i - scoreMin userF itemF u)
      / (scoreMax userF itemF u - scoreMin userF itemF u)

/-- The vector `recommend_vector` of `rec_items`: the scaled scores with
already-purchased items eliminated by the multiply-by-zero mask. -/
def maskedScore {U I k : ℕ} (training : Matrix (Fin U) (Fin I) ℚ)
    (userF : Matrix (Fin U) (Fin k) ℚ) (itemF : Matrix (Fin k) (Fin I) ℚ) (u : Fin U) :
    Fin I → ℚ :=
  fun i => prefMask training u i * scaledScores userF itemF u i

/-- The generator `rec_items(...)` reduced to the item indices it returns:
`np.argsort(recommend_vector)` (a stable ascending sort of all item indices
by masked scaled score), reversed, and cut to the first `num_items` entries.
The subsequent stock-code and description lookups only reformat this index
list. -/
def recItems {U I k : ℕ} (training : Matrix (Fin U) (Fin I) ℚ)
    (userF : Matrix (Fin U) (Fin k) ℚ) (itemF : Matrix (Fin k) (Fin I) ℚ) (u : Fin U)
    (numItems : ℕ) : List (Fin I) :=
  ((List.insertionSort
      (fun i j => maskedScore training userF itemF u i ≤ maskedScore training userF itemF u j)
      (List.finRange I)).reverse).take numItems

/-! ### Concrete instances used by counterexamples and witnesses -/

/-- 3 × 4 ratings matrix of the spec's end-to-end scenario. -/
def ratingsC3 : Matrix (Fin 3) (Fin 4) ℚ := !![2, 0, 0, 1; 0, 3, 0, 0; 1, 0, 4, 0]

/-- 1 × 1 ratings matrix for the ALS counterexamples. -/
def ratingsC1 : Matrix (Fin 1) (Fin 1) ℚ := !![1]

/-- 1 × 1 initial user factors for the ALS counterexamples. -/
def initXC1 : Matrix (Fin 1) (Fin 1) ℚ := !![1]

/-- 1 × 1 initial item factors for the ALS counterexamples. -/
def initYC1 : Matrix (Fin 1) (Fin 1) ℚ := !![1]

/-- 2 × 2 training matrix (all candidates open) for the evaluator
counterexample. -/
def trainingC7 : Matrix (Fin 2) (Fin 2) ℚ := !![0, 0; 0, 0]

/-- 2 × 2 test matrix for the evaluator counterexample: user 1 has a
single label class on its candidate set. -/
def testC7 : Matrix (Fin 2) (Fin 2) ℚ := !![1, 0; 1, 1]

/-- 2 × 1 user factors for the evaluator counterexample. -/
def userFC7 : Matrix (Fin 2) (Fin 1) ℚ := !![1; 1]

/-- 2 × 1 item factors (items × rank) for the evaluator counterexample. -/
def itemFC7 : Matrix (Fin 2) (Fin 1) ℚ := !![2; 1]

/-- 1 × 2 training row for the recommender counterexamples: both items
already purchased. -/
def trainingC8 : Matrix (Fin 1) (Fin 2) ℚ := !![1, 1]

/-- 1 × 2 training row for the recommender witness: item 0 eligible,
item 1 purchased. -/
def trainingC8w : Matrix (Fin 1) (Fin 2) ℚ := !![0, 1]

/-- 1 × 1 user factors for the recommender instances. -/
def userFC8 : Matrix (Fin 1) (Fin 1) ℚ := !![1]

/-- 1 × 2 item factors (rank × items) for the recommender instances. -/
def itemFC8 : Matrix (Fin 1) (Fin 2) ℚ := !![2, 1]

/-! ### Helper lemmas about the sampler -/

theorem sampleWR_subset {α : Type} :
    ∀ (k s : ℕ) (pop : List α), ∀ x ∈ (sampleWR k s pop).1, x ∈ pop
  | 0, _, _ => by intro x hx; simp [sampleWR] at hx
  | _ + 1, _, [] => by intro x hx; simp [sampleWR] at hx
  | k + 1, s, a :: rest => by
    intro x hx
    simp only [sampleWR, List.mem_cons] at hx
    rcases hx with hx | hx
    · have hj : lcgNext s % (a :: rest).length < (a :: rest).length :=
        Nat.mod_lt _ (by simp)
      rw [hx, List.getD_eq_getElem _ _ hj]
      exact List.getElem_mem hj
    · exact ((a :: rest).eraseIdx_sublist _).subset
        (sampleWR_subset k (lcgNext s) _ x hx)

theorem sampleWR_length {α : Type} :
    ∀ (k s : ℕ) (pop : List α), k ≤ pop.length → (sampleWR k s pop).1.length = k
  | 0, _, _, _ => rfl
  | _ + 1, _, [], h => absurd h (by simp)
  | k + 1, s, a :: rest, h => by
    have hj : lcgNext s % (a :: rest).length < (a :: rest).length :=
      Nat.mod_lt _ (by simp)
    have hk : k ≤ ((a :: rest).eraseIdx (lcgNext s % (a :: rest).length)).length := by
      rw [List.length_eraseIdx, if_pos hj]
      simp only [List.length_cons] at h ⊢
      omega
    have ih := sampleWR_length k (lcgNext s)
      ((a :: rest).eraseIdx (lcgNext s % (a :: rest).length)) hk
    simp only [List.length_cons] at ih
    simp [sampleWR, ih]

theorem getElem_not_mem_eraseIdx {α : Type} :
    ∀ (l : List α) (j : ℕ) (h : j < l.length), l.Nodup → l[j] ∉ l.eraseIdx j
  | a :: t, 0, _, hn => by
    simpa using (List.nodup_cons.mp hn).1
  | a :: t, j + 1, h, hn => by
    have hj : j < t.length := Nat.lt_of_succ_lt_succ h
    simp only [List.eraseIdx_cons_succ, List.getElem_cons_succ, List.mem_cons]
    push_neg
    refine ⟨?_, getElem_not_mem_eraseIdx t j hj (List.nodup_cons.mp hn).2⟩
    intro he
    exact (List.nodup_cons.mp hn).1 (he ▸ List.getElem_mem hj)

theorem sampleWR_nodup {α : Type} :
    ∀ (k s : ℕ) (pop : List α), pop.Nodup → (sampleWR k s pop).1.Nodup
  | 0, _, _, _ => by simp [sampleWR]
  | _ + 1, _, [], _ => by simp [sampleWR]
  | k + 1, s, a :: rest, hn => by
    have hj : lcgNext s % (a :: rest).length < (a :: rest).length :=
      Nat.mod_lt _ (by simp)
    simp only [sampleWR]
    refine List.nodup_cons.mpr ⟨?_, sampleWR_nodup k (lcgNext s) _
      (hn.sublist ((a :: rest).eraseIdx_sublist _))⟩
    intro hmem
    have hx := sampleWR_subset k (lcgNext s) _ _ hmem
    rw [List.getD_eq_getElem _ _ hj] at hx
    exact getElem_not_mem_eraseIdx _ _ hj hn hx

/-! ### Helper lemmas about the non-zero support -/

theorem mem_nonzeroPairs {U I : ℕ} (R : Matrix (Fin U) (Fin I) ℚ) (q : Fin U × Fin I) :
    q ∈ nonzeroPairs R ↔ R q.1 q.2 ≠ 0 := by
  obtain ⟨u, i⟩ := q
  simp [nonzeroPairs, List.mem_filter, List.mem_product, List.mem_finRange]

theorem nonzeroPairs_nodup {U I : ℕ} (R : Matrix (Fin U) (Fin I) ℚ) :
    (nonzeroPairs R).Nodup :=
  ((List.nodup_finRange U).product (List.nodup_finRange I)).filter _

theorem nonzeroPairs_length {U I : ℕ} (R : Matrix (Fin U) (Fin I) ℚ) :
    (nonzeroPairs R).length = nnz R := by
  rw [nnz, ← List.toFinset_card_of_nodup (nonzeroPairs_nodup R)]
  congr 1
  ext q
  simp [List.mem_toFinset, mem_nonzeroPairs]

theorem numMaskSamples_eq {U I : ℕ} (R : Matrix (Fin U) (Fin I) ℚ) (pct : ℚ) :
    numMaskSamples R pct = ⌈pct * (nnz R : ℚ)⌉₊ := by
  rw [numMaskSamples, nonzeroPairs_length]

theorem numMaskSamples_le {U I : ℕ} (R : Matrix (Fin U) (Fin I) ℚ) (pct : ℚ)
    (h1 : pct < 1) : numMaskSamples R pct ≤ (nonzeroPairs R).length := by
  rw [numMaskSamples]
  exact Nat.ceil_le.mpr (mul_le_of_le_one_left (by positivity) h1.le)

/-! ### Claims about the splitter -/

/-- C3: for every non-negative sparse input matrix and every `pct_test` in
(0,1), the non-zero support of the returned training matrix is contained in
that of `R` (masking only removes observations); the mask sample has exactly
`⌈pct_test * nnz R⌉` positions, is drawn without replacement (no duplicates)
and only from the non-zero positions; consequently
`nnz training = nnz R - ⌈pct_test * nnz R⌉`. -/
theorem c3_split_masking {U I : ℕ} (R : Matrix (Fin U) (Fin I) ℚ) (pct : ℚ) (s : ℕ)
    (_h0 : 0 < pct) (h1 : pct < 1) :
    (∀ u i, (makeTrain s R pct).training u i ≠ 0 → R u i ≠ 0) ∧
    (drawnSample R pct).length = ⌈pct * (nnz R : ℚ)⌉₊ ∧
    (drawnSample R pct).Nodup ∧
    (∀ q ∈ drawnSample R pct, R q.1 q.2 ≠ 0) ∧
    nnz (makeTrain s R pct).training = nnz R - ⌈pct * (nnz R : ℚ)⌉₊ := by
  have hsubset : ∀ q ∈ drawnSample R pct, R q.1 q.2 ≠ 0 := fun q hq =>
    (mem_nonzeroPairs R q).mp (sampleWR_subset _ _ _ q hq)
  have hnodup : (drawnSample R pct).Nodup :=
    sampleWR_nodup _ _ _ (nonzeroPairs_nodup R)
  have hlen : (drawnSample R pct).length = ⌈pct * (nnz R : ℚ)⌉₊ := by
    rw [drawnSample, sampleWR_length _ _ _ (numMaskSamples_le R pct h1), numMaskSamples_eq]
  have htrain : (makeTrain s R pct).training = Matrix.of fun u i =>
      if (u, i) ∈ drawnSample R pct then 0 else R u i := rfl
  have htr : ∀ u i, (makeTrain s R pct).training u i ≠ 0 → R u i ≠ 0 := by
    intro u i h
    rw [htrain] at h
    by_cases hm : (u, i) ∈ drawnSample R pct
    · simp [Matrix.of_apply, hm] at h
    · intro h0'
      rw [Matrix.of_apply, if_neg hm] at h
      exact h h0'
  refine ⟨htr, hlen, hnodup, hsubset, ?_⟩
  have hset :
      (Finset.univ.filter fun q : Fin U × Fin I => (makeTrain s R pct).training q.1 q.2 ≠ 0)
        = (Finset.univ.filter fun q : Fin U × Fin I => R q.1 q.2 ≠ 0)
          \ (drawnSample R pct).toFinset := by
    ext q
    obtain ⟨u, i⟩ := q
    by_cases hm : (u, i) ∈ drawnSample R pct
    · simp [htrain, Matrix.of_apply, hm, List.mem_toFinset]
    · simp [htrain, Matrix.of_apply, hm, List.mem_toFinset]
  have hsubF : (drawnSample R pct).toFinset
      ⊆ Finset.univ.filter fun q : Fin U × Fin I => R q.1 q.2 ≠ 0 := by
    intro q hq
    rw [List.mem_toFinset] at hq
    simp [hsubset q hq]
  rw [nnz, hset, Finset.card_sdiff hsubF,
    List.toFinset_card_of_nodup hnodup, hlen, nnz]

/-- C3 witness: the spec's end-to-end 3 × 4 scenario with
`pct_test = 1/4`. -/
theorem c3_split_masking_witness :
    ((0 : ℚ) < 1 / 4 ∧ (1 / 4 : ℚ) < 1) ∧
    ((∀ u i, (makeTrain 0 ratingsC3 (1 / 4)).training u i ≠ 0 → ratingsC3 u i ≠ 0) ∧
     (drawnSample ratingsC3 (1 / 4)).length = ⌈(1 / 4 : ℚ) * (nnz ratingsC3 : ℚ)⌉₊ ∧
     (drawnSample ratingsC3 (1 / 4)).Nodup ∧
     (∀ q ∈ drawnSample ratingsC3 (1 / 4), ratingsC3 q.1 q.2 ≠ 0) ∧
     nnz (makeTrain 0 ratingsC3 (1 / 4)).training
       = nnz ratingsC3 - ⌈(1 / 4 : ℚ) * (nnz ratingsC3 : ℚ)⌉₊) :=
  ⟨⟨by norm_num, by norm_num⟩,
    c3_split_masking ratingsC3 (1 / 4) 0 (by norm_num) (by norm_num)⟩

/-- C4: the test matrix is the unmasked binarization of `R` (entries in
{0,1}, and `1` exactly at the non-zero positions of `R`), and the altered
users are exactly the de-duplicated user indices of the drawn mask
sample. -/
theorem c4_test_binarization {U I : ℕ} (s : ℕ) (R : Matrix (Fin U) (Fin I) ℚ) (pct : ℚ) :
    (∀ u i, (makeTrain s R pct).testSet u i = 0 ∨ (makeTrain s R pct).testSet u i = 1) ∧
    (∀ u i, ((makeTrain s R pct).testSet u i = 1 ↔ R u i ≠ 0)) ∧
    (makeTrain s R pct).altered.Nodup ∧
    (∀ u, u ∈ (makeTrain s R pct).altered ↔ ∃ q ∈ drawnSample R pct, q.1 = u) := by
  have hts : (makeTrain s R pct).testSet = binarizeMatrix R := rfl
  refine ⟨?_, ?_, ?_, ?_⟩
  · intro u i
    by_cases h : R u i = 0
    · left; simp [hts, binarizeMatrix, Matrix.of_apply, h]
    · right; simp [hts, binarizeMatrix, Matrix.of_apply, h]
  · intro u i
    by_cases h : R u i = 0
    · simp [hts, binarizeMatrix, Matrix.of_apply, h]
    · simp [hts, binarizeMatrix, Matrix.of_apply, h]
  · exact List.nodup_dedup _
  · intro u
    have : (makeTrain s R pct).altered = ((drawnSample R pct).map Prod.fst).dedup := rfl
    rw [this, List.mem_dedup, List.mem_map]

/-- C5: the splitter is deterministic in its arguments — two calls on the
same ratings matrix and mask fraction return the same training matrix, the
same test matrix and the same altered users regardless of the state of the
process-wide generator (the internal `random.seed(0)` makes the drawn sample
a function of the arguments alone). -/
theorem c5_split_deterministic {U I : ℕ} (s₁ s₂ : ℕ) (R : Matrix (Fin U) (Fin I) ℚ)
    (pct : ℚ) :
    (makeTrain s₁ R pct).training = (makeTrain s₂ R pct).training ∧
    (makeTrain s₁ R pct).testSet = (makeTrain s₂ R pct).testSet ∧
    (makeTrain s₁ R pct).altered = (makeTrain s₂ R pct).altered :=
  ⟨rfl, rfl, rfl⟩

/-- C10: the splitter takes no seed argument and reseeds the process-wide
generator to the constant 0 on entry, so its whole result is independent of
the incoming generator state — even a state reached by seeding the generator
to an arbitrary externally requested value `k` and then drawing `n` times
gives the same result as any other state `s`. -/
theorem c10_reseed_independence {U I : ℕ} (R : Matrix (Fin U) (Fin I) ℚ) (pct : ℚ)
    (k n s : ℕ) :
    makeTrain (lcgNext^[n] (seedState k)) R pct = makeTrain s R pct := rfl

/-! ### Helper lemmas about the linear solver -/

theorem solveLS_correct {n : ℕ} (A : Matrix (Fin n) (Fin n) ℚ) (b : Fin n → ℚ)
    (h : A.det ≠ 0) : A.mulVec (solveLS A b) = b := by
  rw [solveLS, if_neg h, Matrix.mulVec_smul, Matrix.mulVec_mulVec, Matrix.mul_adjugate,
    Matrix.smul_mulVec_assoc, Matrix.one_mulVec, smul_smul, inv_mul_cancel₀ h, one_smul]

theorem solveLS_one (A : Matrix (Fin 1) (Fin 1) ℚ) (b : Fin 1 → ℚ) (h : A 0 0 ≠ 0) :
    solveLS A b = fun _ => b 0 / A 0 0 := by
  funext j
  rw [solveLS, if_neg (by rw [Matrix.det_fin_one]; exact h), Matrix.adjugate_fin_one,
    Matrix.det_fin_one, Matrix.one_mulVec]
  have hj : j = 0 := Subsingleton.elim j 0
  subst hj
  rw [Pi.smul_apply, smul_eq_mul, inv_mul_eq_div]

theorem binVec_eq_indicator {n : ℕ} (c : Fin n → ℚ) :
    binVec c = fun j => if c j ≠ 0 then (1 : ℚ) else 0 := by
  funext j
  by_cases h : c j = 0 <;> simp [binVec, h]

/-! ### Evaluation of the 1 × 1 ALS instance -/

theorem alsC1_userA :
    (initYC1ᵀ * initYC1 + initYC1ᵀ * Matrix.diagonal (confRow 1 ratingsC1 0) * initYC1
      + (1 : ℚ) • (1 : Matrix (Fin 1) (Fin 1) ℚ)) 0 0 = 3 := by
  simp [initYC1, ratingsC1, confRow, Matrix.mul_apply, Fin.sum_univ_one,
    Matrix.diagonal_apply_eq]
  norm_num

theorem alsC1_userb :
    ((initYC1ᵀ * (Matrix.diagonal (confRow 1 ratingsC1 0) + 1)).mulVec
      (binVec (confRow 1 ratingsC1 0))) 0 = 2 := by
  simp [initYC1, ratingsC1, confRow, binVec, Matrix.mulVec, Matrix.dotProduct,
    Matrix.mul_apply, Fin.sum_univ_one, Matrix.diagonal_apply_eq]
  norm_num

theorem alsC1_fst_mat : (alsOuterIteration 1 1 ratingsC1 initXC1 initYC1).1 = !![2 / 3] := by
  have h1 : (alsOuterIteration 1 1 ratingsC1 initXC1 initYC1).1 0
      = solveLS
          (initYC1ᵀ * initYC1 + initYC1ᵀ * Matrix.diagonal (confRow 1 ratingsC1 0) * initYC1
            + (1 : ℚ) • (1 : Matrix (Fin 1) (Fin 1) ℚ))
          ((initYC1ᵀ * (Matrix.diagonal (confRow 1 ratingsC1 0) + 1)).mulVec
            (binVec (confRow 1 ratingsC1 0))) := rfl
  ext u f
  fin_cases u; fin_cases f
  show (alsOuterIteration 1 1 ratingsC1 initXC1 initYC1).1 0 0 = !![(2 : ℚ) / 3] 0 0
  rw [h1, solveLS_one _ _ (by rw [alsC1_userA]; norm_num)]
  rw [alsC1_userb, alsC1_userA]
  norm_num

theorem alsC1_itemA :
    (initXC1ᵀ * initXC1
      + (!![2 / 3] : Matrix (Fin 1) (Fin 1) ℚ)ᵀ * Matrix.diagonal (confCol 1 ratingsC1 0)
        * (!![2 / 3] : Matrix (Fin 1) (Fin 1) ℚ)
      + (1 : ℚ) • (1 : Matrix (Fin 1) (Fin 1) ℚ)) 0 0 = 22 / 9 := by
  simp [initXC1, ratingsC1, confCol, Matrix.mul_apply, Fin.sum_univ_one,
    Matrix.diagonal_apply_eq]
  norm_num

theorem alsC1_itemb :
    (((!![2 / 3] : Matrix (Fin 1) (Fin 1) ℚ)ᵀ * (Matrix.diagonal (confCol 1 ratingsC1 0) + 1)).mulVec
      (binVec (confCol 1 ratingsC1 0))) 0 = 4 / 3 := by
  simp [ratingsC1, confCol, binVec, Matrix.mulVec, Matrix.dotProduct,
    Matrix.mul_apply, Fin.sum_univ_one, Matrix.diagonal_apply_eq]
  norm_num

theorem alsC1_snd_mat : (alsOuterIteration 1 1 ratingsC1 initXC1 initYC1).2 = !![6 / 11] := by
  have h2 : (alsOuterIteration 1 1 ratingsC1 initXC1 initYC1).2 0
      = solveLS
          (initXC1ᵀ * initXC1
            + (alsOuterIteration 1 1 ratingsC1 initXC1 initYC1).1ᵀ
              * Matrix.diagonal (confCol 1 ratingsC1 0)
              * (alsOuterIteration 1 1 ratingsC1 initXC1 initYC1).1
            + (1 : ℚ) • (1 : Matrix (Fin 1) (Fin 1) ℚ))
          (((alsOuterIteration 1 1 ratingsC1 initXC1 initYC1).1ᵀ
              * (Matrix.diagonal (confCol 1 ratingsC1 0) + 1)).mulVec
            (binVec (confCol 1 ratingsC1 0))) := rfl
  rw [alsC1_fst_mat] at h2
  ext i f
  fin_cases i; fin_cases f
  show (alsOuterIteration 1 1 ratingsC1 initXC1 initYC1).2 0 0 = !![(6 : ℚ) / 11] 0 0
  rw [h2, solveLS_one _ _ (by rw [alsC1_itemA]; norm_num)]
  rw [alsC1_itemb, alsC1_itemA]
  norm_num

theorem alsC1_freshA :
    ((!![2 / 3] : Matrix (Fin 1) (Fin 1) ℚ)ᵀ * (!![2 / 3] : Matrix (Fin 1) (Fin 1) ℚ)
      + (!![2 / 3] : Matrix (Fin 1) (Fin 1) ℚ)ᵀ * Matrix.diagonal (confCol 1 ratingsC1 0)
        * (!![2 / 3] : Matrix (Fin 1) (Fin 1) ℚ)
      + (1 : ℚ) • (1 : Matrix (Fin 1) (Fin 1) ℚ)) 0 0 = 17 / 9 := by
  simp [ratingsC1, confCol, Matrix.mul_apply, Fin.sum_univ_one, Matrix.diagonal_apply_eq]
  norm_num

theorem alsC1fresh_snd_mat :
    (alsOuterIterationFreshXtX 1 1 ratingsC1 initXC1 initYC1).2 = !![12 / 17] := by
  have hu : userPassMat 1 1 ratingsC1 initYC1
      = (alsOuterIteration 1 1 ratingsC1 initXC1 initYC1).1 := rfl
  have h2 : (alsOuterIterationFreshXtX 1 1 ratingsC1 initXC1 initYC1).2 0
      = solveLS
          ((userPassMat 1 1 ratingsC1 initYC1)ᵀ * userPassMat 1 1 ratingsC1 initYC1
            + (userPassMat 1 1 ratingsC1 initYC1)ᵀ * Matrix.diagonal (confCol 1 ratingsC1 0)
              * userPassMat 1 1 ratingsC1 initYC1
            + (1 : ℚ) • (1 : Matrix (Fin 1) (Fin 1) ℚ))
          (((userPassMat 1 1 ratingsC1 initYC1)ᵀ
              * (Matrix.diagonal (confCol 1 ratingsC1 0) + 1)).mulVec
            (binVec (confCol 1 ratingsC1 0))) := rfl
  rw [hu, alsC1_fst_mat] at h2
  ext i f
  fin_cases i; fin_cases f
  show (alsOuterIterationFreshXtX 1 1 ratingsC1 initXC1 initYC1).2 0 0 = !![(12 : ℚ) / 17] 0 0
  rw [h2, solveLS_one _ _ (by rw [alsC1_freshA]; norm_num)]
  rw [alsC1_itemb, alsC1_freshA]
  norm_num

/-! ### Claims about the ALS solver -/

/-- C1 counterexample: on a concrete 1-user, 1-item, rank-1 instance
(ratings `[[1]]`, `lambda = alpha = 1`, initial factors `[[1]]`), the item
row written by the outer iteration does not solve the symmetric system
`(XᵗX + Xᵗ diag(c_i) X + lambda I) y_i = Xᵗ(diag(c_i)+I) p_iᵗ` — neither
with `X` the just-updated user-factor matrix nor with `X` the
iteration-start one — because the code's `xTx` Gram term is taken from the
iteration-start `X` while the remaining terms use the updated `X`. -/
theorem c1_counterexample :
    ¬ ((((alsOuterIteration 1 1 ratingsC1 initXC1 initYC1).1ᵀ
            * (alsOuterIteration 1 1 ratingsC1 initXC1 initYC1).1
          + (alsOuterIteration 1 1 ratingsC1 initXC1 initYC1).1ᵀ
            * Matrix.diagonal (confCol 1 ratingsC1 0)
            * (alsOuterIteration 1 1 ratingsC1 initXC1 initYC1).1
          + (1 : ℚ) • (1 : Matrix (Fin 1) (Fin 1) ℚ)).mulVec
          ((alsOuterIteration 1 1 ratingsC1 initXC1 initYC1).2 0)) 0
        = (((alsOuterIteration 1 1 ratingsC1 initXC1 initYC1).1ᵀ
            * (Matrix.diagonal (confCol 1 ratingsC1 0) + 1)).mulVec
            (fun v => if confCol 1 ratingsC1 0 v ≠ 0 then 1 else 0)) 0)
    ∧ ¬ (((initXC1ᵀ * initXC1 + initXC1ᵀ * Matrix.diagonal (confCol 1 ratingsC1 0) * initXC1
          + (1 : ℚ) • (1 : Matrix (Fin 1) (Fin 1) ℚ)).mulVec
          ((alsOuterIteration 1 1 ratingsC1 initXC1 initYC1).2 0)) 0
        = ((initXC1ᵀ * (Matrix.diagonal (confCol 1 ratingsC1 0) + 1)).mulVec
            (fun v => if confCol 1 ratingsC1 0 v ≠ 0 then 1 else 0)) 0) := by
  rw [alsC1_fst_mat, alsC1_snd_mat]
  constructor
  · intro h
    rw [show (!![6 / 11] : Matrix (Fin 1) (Fin 1) ℚ) 0 = fun _ => (6 : ℚ) / 11 from
      funext fun j => by fin_cases j; simp] at h
    simp [ratingsC1, confCol, initXC1, Matrix.mulVec, Matrix.dotProduct,
      Matrix.mul_apply, Fin.sum_univ_one, Matrix.diagonal_apply_eq] at h
    norm_num at h
  · intro h
    rw [show (!![6 / 11] : Matrix (Fin 1) (Fin 1) ℚ) 0 = fun _ => (6 : ℚ) / 11 from
      funext fun j => by fin_cases j; simp] at h
    simp [ratingsC1, confCol, initXC1, Matrix.mulVec, Matrix.dotProduct,
      Matrix.mul_apply, Fin.sum_univ_one, Matrix.diagonal_apply_eq] at h
    norm_num at h

/-- C1 (amended): in every outer iteration the new user-factor row written
into row `u` of `X` solves
`(YᵗY + Yᵗ diag(c_u) Y + lambda I) x_u = Yᵗ(diag(c_u)+I) p_uᵗ`, with `c_u`
row `u` of the stored confidence matrix `alpha * R` and `p_u` its
binarization; the item row written into row `i` of `Y` solves the analogous
system in which the Gram term is `X₀ᵗX₀` of the iteration-start user factors
`X₀` while the confidence-weighted terms use the user factors `X₁` produced
by this iteration's user pass:
`(X₀ᵗX₀ + X₁ᵗ diag(c_i) X₁ + lambda I) y_i = X₁ᵗ(diag(c_i)+I) p_iᵗ`
(whenever the respective system matrices are invertible). -/
theorem c1_amended {U I k : ℕ} (lam alphaV : ℚ) (R : Matrix (Fin U) (Fin I) ℚ)
    (X : Matrix (Fin U) (Fin k) ℚ) (Y : Matrix (Fin I) (Fin k) ℚ) (u : Fin U) (i : Fin I)
    (hu : (Yᵀ * Y + Yᵀ * Matrix.diagonal (confRow alphaV R u) * Y
        + lam • (1 : Matrix (Fin k) (Fin k) ℚ)).det ≠ 0)
    (hi : (Xᵀ * X
        + (alsOuterIteration lam alphaV R X Y).1ᵀ * Matrix.diagonal (confCol alphaV R i)
          * (alsOuterIteration lam alphaV R X Y).1
        + lam • (1 : Matrix (Fin k) (Fin k) ℚ)).det ≠ 0) :
    (Yᵀ * Y + Yᵀ * Matrix.diagonal (confRow alphaV R u) * Y
        + lam • (1 : Matrix (Fin k) (Fin k) ℚ)).mulVec
        ((alsOuterIteration lam alphaV R X Y).1 u)
      = (Yᵀ * (Matrix.diagonal (confRow alphaV R u) + 1)).mulVec
          (fun j => if confRow alphaV R u j ≠ 0 then 1 else 0) ∧
    (Xᵀ * X
        + (alsOuterIteration lam alphaV R X Y).1ᵀ * Matrix.diagonal (confCol alphaV R i)
          * (alsOuterIteration lam alphaV R X Y).1
        + lam • (1 : Matrix (Fin k) (Fin k) ℚ)).mulVec
        ((alsOuterIteration lam alphaV R X Y).2 i)
      = ((alsOuterIteration lam alphaV R X Y).1ᵀ
          * (Matrix.diagonal (confCol alphaV R i) + 1)).mulVec
          (fun v => if confCol alphaV R i v ≠ 0 then 1 else 0) := by
  constructor
  · have h1 : (alsOuterIteration lam alphaV R X Y).1 u
        = solveLS (Yᵀ * Y + Yᵀ * Matrix.diagonal (confRow alphaV R u) * Y
            + lam • (1 : Matrix (Fin k) (Fin k) ℚ))
          ((Yᵀ * (Matrix.diagonal (confRow alphaV R u) + 1)).mulVec
            (binVec (confRow alphaV R u))) := rfl
    rw [h1, solveLS_correct _ _ hu, binVec_eq_indicator]
  · have h2 : (alsOuterIteration lam alphaV R X Y).2 i
        = solveLS (Xᵀ * X
            + (alsOuterIteration lam alphaV R X Y).1ᵀ * Matrix.diagonal (confCol alphaV R i)
              * (alsOuterIteration lam alphaV R X Y).1
            + lam • (1 : Matrix (Fin k) (Fin k) ℚ))
          (((alsOuterIteration lam alphaV R X Y).1ᵀ
              * (Matrix.diagonal (confCol alphaV R i) + 1)).mulVec
            (binVec (confCol alphaV R i))) := rfl
    rw [h2, solveLS_correct _ _ hi, binVec_eq_indicator]

/-- C1 witness: the amended claim instantiated on the concrete 1 × 1
instance, with both system matrices invertible. -/
theorem c1_amended_witness :
    ((initYC1ᵀ * initYC1 + initYC1ᵀ * Matrix.diagonal (confRow 1 ratingsC1 0) * initYC1
        + (1 : ℚ) • (1 : Matrix (Fin 1) (Fin 1) ℚ)).det ≠ 0) ∧
    ((initXC1ᵀ * initXC1
        + (alsOuterIteration 1 1 ratingsC1 initXC1 initYC1).1ᵀ
          * Matrix.diagonal (confCol 1 ratingsC1 0)
          * (alsOuterIteration 1 1 ratingsC1 initXC1 initYC1).1
        + (1 : ℚ) • (1 : Matrix (Fin 1) (Fin 1) ℚ)).det ≠ 0) ∧
    ((initYC1ᵀ * initYC1 + initYC1ᵀ * Matrix.diagonal (confRow 1 ratingsC1 0) * initYC1
        + (1 : ℚ) • (1 : Matrix (Fin 1) (Fin 1) ℚ)).mulVec
        ((alsOuterIteration 1 1 ratingsC1 initXC1 initYC1).1 0)
      = (initYC1ᵀ * (Matrix.diagonal (confRow 1 ratingsC1 0) + 1)).mulVec
          (fun j => if confRow 1 ratingsC1 0 j ≠ 0 then 1 else 0) ∧
    (initXC1ᵀ * initXC1
        + (alsOuterIteration 1 1 ratingsC1 initXC1 initYC1).1ᵀ
          * Matrix.diagonal (confCol 1 ratingsC1 0)
          * (alsOuterIteration 1 1 ratingsC1 initXC1 initYC1).1
        + (1 : ℚ) • (1 : Matrix (Fin 1) (Fin 1) ℚ)).mulVec
        ((alsOuterIteration 1 1 ratingsC1 initXC1 initYC1).2 0)
      = ((alsOuterIteration 1 1 ratingsC1 initXC1 initYC1).1ᵀ
          * (Matrix.diagonal (confCol 1 ratingsC1 0) + 1)).mulVec
          (fun v => if confCol 1 ratingsC1 0 v ≠ 0 then 1 else 0)) := by
  have hu : (initYC1ᵀ * initYC1 + initYC1ᵀ * Matrix.diagonal (confRow 1 ratingsC1 0) * initYC1
      + (1 : ℚ) • (1 : Matrix (Fin 1) (Fin 1) ℚ)).det ≠ 0 := by
    rw [Matrix.det_fin_one, alsC1_userA]; norm_num
  have hi : (initXC1ᵀ * initXC1
      + (alsOuterIteration 1 1 ratingsC1 initXC1 initYC1).1ᵀ
        * Matrix.diagonal (confCol 1 ratingsC1 0)
        * (alsOuterIteration 1 1 ratingsC1 initXC1 initYC1).1
      + (1 : ℚ) • (1 : Matrix (Fin 1) (Fin 1) ℚ)).det ≠ 0 := by
    rw [alsC1_fst_mat, Matrix.det_fin_one, alsC1_itemA]; norm_num
  exact ⟨hu, hi, c1_amended 1 1 ratingsC1 initXC1 initYC1 0 0 hu hi⟩

/-- C2 counterexample: on the concrete 1 × 1 instance the item factor
written by the source's outer iteration (whose `xTx` is computed at the
start of the iteration, before the user pass) differs from the one that the
spec's reading — `XtX` computed after the user pass from the just-updated
`X` — would produce: `6/11` against `12/17`. -/
theorem c2_counterexample :
    (alsOuterIteration 1 1 ratingsC1 initXC1 initYC1).2 0 0
      ≠ (alsOuterIterationFreshXtX 1 1 ratingsC1 initXC1 initYC1).2 0 0 := by
  rw [alsC1_snd_mat, alsC1fresh_snd_mat]
  norm_num

/-- C2 (amended): within each outer iteration `yTy` and `xTx` are both
computed once, at the start of the iteration before the user pass.  The
whole iteration therefore factors as: a user pass against the incoming `Y`
(whose systems use the Gram matrix `YᵗY` of that same `Y`), followed by an
item pass whose Gram term is `XᵗX` of the iteration-start `X` while its
confidence-weighted terms use the just-updated user factors. -/
theorem c2_amended {U I k : ℕ} (lam alphaV : ℚ) (R : Matrix (Fin U) (Fin I) ℚ)
    (X : Matrix (Fin U) (Fin k) ℚ) (Y : Matrix (Fin I) (Fin k) ℚ) :
    alsOuterIteration lam alphaV R X Y
      = (userPassMat lam alphaV R Y,
         itemPassFrom (Xᵀ * X) lam alphaV R (userPassMat lam alphaV R Y)) := rfl

/-! ### Helper lemmas about the evaluator -/

theorem aucScore_single_class {I : ℕ} (cands : List (Fin I)) (f g : Fin I → ℚ)
    (h : (∀ i ∈ cands, g i = 1) ∨ (∀ i ∈ cands, g i ≠ 1)) :
    aucScore (cands.map f) (cands.map g) = none := by
  have hz : (cands.map f).zip (cands.map g) = cands.map fun a => (f a, g a) :=
    List.zip_map' f g cands
  rcases h with h | h
  · have hneg : ((cands.map fun a => (f a, g a)).filter fun q => q.2 ≠ 1) = [] := by
      rw [List.filter_map, List.map_eq_nil_iff, List.filter_eq_nil_iff]
      intro a ha
      simp [h a ha]
    simp only [aucScore, hz, hneg]
    simp
  · have hpos : ((cands.map fun a => (f a, g a)).filter fun q => q.2 = 1) = [] := by
      rw [List.filter_map, List.map_eq_nil_iff, List.filter_eq_nil_iff]
      intro a ha
      simp [h a ha]
    simp only [aucScore, hz, hpos]
    simp

theorem npMean_none {β : Type} (l : List β) (F : β → Option ℚ) (u : β)
    (hu : u ∈ l) (hnone : F u = none) : npMean (l.map F) = none := by
  rw [npMean, if_neg, if_pos]
  · rw [List.any_eq_true]
    exact ⟨F u, List.mem_map_of_mem F hu, by rw [hnone]; rfl⟩
  · simp only [List.length_map]
    exact fun hz => (List.ne_nil_of_mem hu) (List.length_eq_zero.mp hz)

/-! ### Claims about the evaluator -/

/-- C6: for each altered user the evaluator feeds the AUC computation with
exactly the candidate columns where the user's training row is zero: the
model scores are the dot products of the user's factor row with the
candidate items' factor columns, the ground-truth labels are the test row at
the candidate columns, and the popularity scores are the column sums of the
test matrix over all users — a function of the item alone, independent of
the user. -/
theorem c6_evaluator_restriction {U I k : ℕ} (training : Matrix (Fin U) (Fin I) ℚ)
    (altered : List (Fin U)) (userF : Matrix (Fin U) (Fin k) ℚ)
    (itemF : Matrix (Fin I) (Fin k) ℚ) (testSet : Matrix (Fin U) (Fin I) ℚ) :
    calcMeanAuc training altered userF itemF testSet
      = (Option.map round3 (npMean (altered.map fun u =>
          aucScore
            ((candidateItems training u).map fun i =>
              Matrix.dotProduct (userF u) fun f => itemF i f)
            ((candidateItems training u).map fun i => testSet u i))),
         Option.map round3 (npMean (altered.map fun u =>
          aucScore
            ((candidateItems training u).map fun i => ∑ v, testSet v i)
            ((candidateItems training u).map fun i => testSet u i)))) := rfl

/-- C7 (amended): the evaluator does not exclude users with a single-class
candidate set.  Such a user's AUC is NaN (`none`), `np.mean` propagates it,
and both reported means are NaN whenever at least one altered user has a
single-class candidate set; the means are taken over all altered users, not
over only those with a defined AUC. -/
theorem c7_amended {U I k : ℕ} (training : Matrix (Fin U) (Fin I) ℚ)
    (altered : List (Fin U)) (userF : Matrix (Fin U) (Fin k) ℚ)
    (itemF : Matrix (Fin I) (Fin k) ℚ) (testSet : Matrix (Fin U) (Fin I) ℚ) (u : Fin U)
    (hmem : u ∈ altered)
    (hclass : (∀ i ∈ candidateItems training u, testSet u i = 1) ∨
      (∀ i ∈ candidateItems training u, testSet u i ≠ 1)) :
    calcMeanAuc training altered userF itemF testSet = (none, none) := by
  have hcalc : calcMeanAuc training altered userF itemF testSet
      = (Option.map round3 (npMean (altered.map fun v =>
          aucScore
            ((candidateItems training v).map fun i => ∑ f, userF v f * itemF i f)
            ((candidateItems training v).map fun i => testSet v i))),
         Option.map round3 (npMean (altered.map fun v =>
          aucScore
            ((candidateItems training v).map fun i => ∑ w, testSet w i)
            ((candidateItems training v).map fun i => testSet v i)))) := rfl
  have h1 : aucScore
      ((candidateItems training u).map fun i => ∑ f, userF u f * itemF i f)
      ((candidateItems training u).map fun i => testSet u i) = none :=
    aucScore_single_class _ _ _ hclass
  have h2 : aucScore
      ((candidateItems training u).map fun i => ∑ w, testSet w i)
      ((candidateItems training u).map fun i => testSet u i) = none :=
    aucScore_single_class _ _ _ hclass
  rw [hcalc, npMean_none altered _ u hmem h1, npMean_none altered _ u hmem h2]
  rfl

theorem calcMeanAucDefinedOnly_fst {U I k : ℕ} (training : Matrix (Fin U) (Fin I) ℚ)
    (altered : List (Fin U)) (userF : Matrix (Fin U) (Fin k) ℚ)
    (itemF : Matrix (Fin I) (Fin k) ℚ) (testSet : Matrix (Fin U) (Fin I) ℚ) :
    (calcMeanAucDefinedOnly training altered userF itemF testSet).1
      = (if ((altered.map fun v =>
            aucScore
              ((candidateItems training v).map fun i => ∑ f, userF v f * itemF i f)
              ((candidateItems training v).map fun i => testSet v i)).reduceOption.length = 0)
          then none
          else some (round3
            (((altered.map fun v =>
                aucScore
                  ((candidateItems training v).map fun i => ∑ f, userF v f * itemF i f)
                  ((candidateItems training v).map fun i => testSet v i)).reduceOption.sum)
              / (((altered.map fun v =>
                  aucScore
                    ((candidateItems training v).map fun i => ∑ f, userF v f * itemF i f)
                    ((candidateItems training v).map fun i => testSet v i)).reduceOption.length
                  : ℚ))))) := rfl

/-- C7 counterexample: with two altered users of which the second has a
single-class candidate set (`test` row `[1, 1]`) and the first a two-class
one, the mean reported by the evaluator is NaN (`none`), not the mean over
only the users with a defined AUC (which is defined, namely
`some (round3 1)`): the degenerate user is not excluded from the
aggregate. -/
theorem c7_counterexample :
    (calcMeanAuc trainingC7 [0, 1] userFC7 itemFC7 testC7).1
      ≠ (calcMeanAucDefinedOnly trainingC7 [0, 1] userFC7 itemFC7 testC7).1 := by
  have hclass1 : (∀ i ∈ candidateItems trainingC7 1, testC7 1 i = 1) ∨
      (∀ i ∈ candidateItems trainingC7 1, testC7 1 i ≠ 1) := Or.inl (by decide)
  have hL : (calcMeanAuc trainingC7 [0, 1] userFC7 itemFC7 testC7).1 = none := by
    have hcalc : (calcMeanAuc trainingC7 [0, 1] userFC7 itemFC7 testC7).1
        = Option.map round3 (npMean (([0, 1] : List (Fin 2)).map fun v =>
            aucScore
              ((candidateItems trainingC7 v).map fun i => ∑ f, userFC7 v f * itemFC7 i f)
              ((candidateItems trainingC7 v).map fun i => testC7 v i))) := rfl
    rw [hcalc,
      npMean_none _ _ 1 (by decide) (aucScore_single_class _ _ _ hclass1)]
    rfl
  have hc0 : candidateItems trainingC7 0 = [0, 1] := by decide
  have hs0 : ((candidateItems trainingC7 0).map fun i => ∑ f, userFC7 0 f * itemFC7 i f)
      = [2, 1] := by
    rw [hc0]
    norm_num [Fin.sum_univ_one, userFC7, itemFC7]
  have hl0 : ((candidateItems trainingC7 0).map fun i => testC7 0 i) = [1, 0] := by
    rw [hc0]; decide
  have ha0 : aucScore [2, 1] [1, 0] = some 1 := by
    norm_num [aucScore, List.product]
  have ha1 : aucScore
      ((candidateItems trainingC7 1).map fun i => ∑ f, userFC7 1 f * itemFC7 i f)
      ((candidateItems trainingC7 1).map fun i => testC7 1 i) = none :=
    aucScore_single_class _ _ _ hclass1
  have hlist : (([0, 1] : List (Fin 2)).map fun v =>
      aucScore
        ((candidateItems trainingC7 v).map fun i => ∑ f, userFC7 v f * itemFC7 i f)
        ((candidateItems trainingC7 v).map fun i => testC7 v i)) = [some 1, none] := by
    simp only [List.map_cons, List.map_nil]
    rw [hs0, hl0, ha0, ha1]
  have hR : (calcMeanAucDefinedOnly trainingC7 [0, 1] userFC7 itemFC7 testC7).1
      = some (round3 1) := by
    rw [calcMeanAucDefinedOnly_fst, hlist]
    norm_num [List.reduceOption, List.filterMap_cons]
  rw [hL, hR]
  exact fun h => Option.noConfusion h

/-- C7 witness: the amended claim instantiated on the concrete degenerate
instance. -/
theorem c7_amended_witness :
    ((1 : Fin 2) ∈ ([0, 1] : List (Fin 2)) ∧
      ((∀ i ∈ candidateItems trainingC7 1, testC7 1 i = 1) ∨
        (∀ i ∈ candidateItems trainingC7 1, testC7 1 i ≠ 1))) ∧
    calcMeanAuc trainingC7 [0, 1] userFC7 itemFC7 testC7 = (none, none) :=
  ⟨⟨by decide, Or.inl (by decide)⟩,
    c7_amended trainingC7 [0, 1] userFC7 itemFC7 testC7 1 (by decide) (Or.inl (by decide))⟩

/-! ### Helper lemmas about the recommender -/

theorem foldr_min_le {l : List ℚ} (d : ℚ) : ∀ x ∈ l, l.foldr min d ≤ x := by
  induction l with
  | nil => simp
  | cons a t ih =>
    intro x hx
    rcases List.mem_cons.mp hx with h | h
    · subst h; exact min_le_left _ _
    · exact le_trans (min_le_right _ _) (ih x h)

theorem foldr_min_le_init (l : List ℚ) (d : ℚ) : l.foldr min d ≤ d := by
  induction l with
  | nil => exact le_refl d
  | cons a t ih => exact le_trans (min_le_right _ _) ih

theorem init_le_foldr_max (l : List ℚ) (d : ℚ) : d ≤ l.foldr max d := by
  induction l with
  | nil => exact le_refl d
  | cons a t ih => exact le_trans ih (le_max_right _ _)

theorem scoreMin_le_rawScores {U I k : ℕ} (userF : Matrix (Fin U) (Fin k) ℚ)
    (itemF : Matrix (Fin k) (Fin I) ℚ) (u : Fin U) (i : Fin I) :
    scoreMin userF itemF u ≤ rawScores userF itemF u i :=
  foldr_min_le _ _ (List.mem_map_of_mem _ (List.mem_finRange i))

theorem scoreMin_le_scoreMax {U I k : ℕ} (userF : Matrix (Fin U) (Fin k) ℚ)
    (itemF : Matrix (Fin k) (Fin I) ℚ) (u : Fin U) :
    scoreMin userF itemF u ≤ scoreMax userF itemF u :=
  le_trans (foldr_min_le_init _ _) (init_le_foldr_max _ _)

theorem scaledScores_nonneg {U I k : ℕ} (userF : Matrix (Fin U) (Fin k) ℚ)
    (itemF : Matrix (Fin k) (Fin I) ℚ) (u : Fin U) (i : Fin I) :
    0 ≤ scaledScores userF itemF u i := by
  rw [scaledScores]
  by_cases h : scoreMax userF itemF u = scoreMin userF itemF u
  · rw [if_pos h]
  · rw [if_neg h]
    have hlt : scoreMin userF itemF u < scoreMax userF itemF u :=
      lt_of_le_of_ne (scoreMin_le_scoreMax userF itemF u) (Ne.symm h)
    exact div_nonneg (sub_nonneg.mpr (scoreMin_le_rawScores userF itemF u i))
      (sub_nonneg.mpr hlt.le)

theorem maskedScore_nonneg {U I k : ℕ} (training : Matrix (Fin U) (Fin I) ℚ)
    (userF : Matrix (Fin U) (Fin k) ℚ) (itemF : Matrix (Fin k) (Fin I) ℚ) (u : Fin U)
    (hnn : ∀ i, 0 ≤ training u i) (i : Fin I) :
    0 ≤ maskedScore training userF itemF u i := by
  rw [maskedScore]
  refine mul_nonneg ?_ (scaledScores_nonneg userF itemF u i)
  rw [prefMask]
  by_cases h : training u i + 1 > 1
  · rw [if_pos h]
  · rw [if_neg h]
    have := hnn i
    linarith

theorem maskedScore_pos_eligible {U I k : ℕ} (training : Matrix (Fin U) (Fin I) ℚ)
    (userF : Matrix (Fin U) (Fin k) ℚ) (itemF : Matrix (Fin k) (Fin I) ℚ) (u : Fin U)
    (hnn : ∀ i, 0 ≤ training u i) (i : Fin I)
    (hpos : 0 < maskedScore training userF itemF u i) : training u i = 0 := by
  by_contra hne
  have ht : 0 < training u i := lt_of_le_of_ne (hnn i) (Ne.symm hne)
  have : maskedScore training userF itemF u i = 0 := by
    rw [maskedScore, prefMask, if_pos (by linarith), zero_mul]
  rw [this] at hpos
  exact lt_irrefl 0 hpos

theorem recItems_sorted_desc {U I k : ℕ} (training : Matrix (Fin U) (Fin I) ℚ)
    (userF : Matrix (Fin U) (Fin k) ℚ) (itemF : Matrix (Fin k) (Fin I) ℚ) (u : Fin U) :
    ((List.insertionSort
        (fun i j => maskedScore training userF itemF u i ≤ maskedScore training userF itemF u j)
        (List.finRange I)).reverse).Pairwise
      (fun a b => maskedScore training userF itemF u b ≤ maskedScore training userF itemF u a) := by
  haveI ht : IsTotal (Fin I)
      (fun i j => maskedScore training userF itemF u i ≤ maskedScore training userF itemF u j) :=
    ⟨fun a b => le_total _ _⟩
  haveI htr : IsTrans (Fin I)
      (fun i j => maskedScore training userF itemF u i ≤ maskedScore training userF itemF u j) :=
    ⟨fun a b c hab hbc => le_trans hab hbc⟩
  exact List.pairwise_reverse.mpr (List.sorted_insertionSort _ _)

theorem recItems_perm {U I k : ℕ} (training : Matrix (Fin U) (Fin I) ℚ)
    (userF : Matrix (Fin U) (Fin k) ℚ) (itemF : Matrix (Fin k) (Fin I) ℚ) (u : Fin U) :
    ((List.insertionSort
        (fun i j => maskedScore training userF itemF u i ≤ maskedScore training userF itemF u j)
        (List.finRange I)).reverse).Perm (List.finRange I) :=
  (List.reverse_perm _).trans (List.perm_insertionSort _ _)

/-- C8 (amended): provided `num_items` does not exceed the number of items
with a strictly positive masked scaled score, no already-purchased item
(non-zero entry in the user's non-negative training row) appears in the
returned recommendation list.  (Without that bound the cut can reach into
the zero-score block, which mixes eliminated purchased items with eligible
zero-scored ones.) -/
theorem c8_amended {U I k : ℕ} (training : Matrix (Fin U) (Fin I) ℚ)
    (userF : Matrix (Fin U) (Fin k) ℚ) (itemF : Matrix (Fin k) (Fin I) ℚ) (u : Fin U)
    (numItems : ℕ) (hnn : ∀ i, 0 ≤ training u i)
    (hN : numItems ≤ ((List.finRange I).filter fun i =>
        0 < maskedScore training userF itemF u i).length) :
    ∀ i ∈ recItems training userF itemF u numItems, training u i = 0 := by
  intro i hi
  have hrec : recItems training userF itemF u numItems
      = ((List.insertionSort
          (fun a b => maskedScore training userF itemF u a ≤ maskedScore training userF itemF u b)
          (List.finRange I)).reverse).take numItems := rfl
  rw [hrec] at hi
  obtain ⟨p, hp, hpe⟩ := List.getElem_of_mem hi
  set L := (List.insertionSort
      (fun a b => maskedScore training userF itemF u a ≤ maskedScore training userF itemF u b)
      (List.finRange I)).reverse with hLdef
  have hpL : p < L.length := by
    have := hp
    rw [List.length_take] at this
    exact lt_of_lt_of_le this (min_le_right _ _)
  have hpN : p < numItems := by
    have := hp
    rw [List.length_take] at this
    exact lt_of_lt_of_le this (min_le_left _ _)
  have hie : L[p] = i := by
    rw [← hpe]
    exact (List.getElem_take _).symm
  refine maskedScore_pos_eligible training userF itemF u hnn i ?_
  by_contra hle
  push_neg at hle
  -- all elements from position p on have non-positive score
  have hsorted := recItems_sorted_desc training userF itemF u
  rw [← hLdef] at hsorted
  have hdrop : L[p] :: L.drop (p + 1) = L.drop p := List.getElem_cons_drop L p hpL
  have hdrop_pair : (L.drop p).Pairwise
      (fun a b => maskedScore training userF itemF u b ≤ maskedScore training userF itemF u a) :=
    List.Pairwise.sublist (List.drop_sublist _ _) hsorted
  have hnonpos : ∀ x ∈ L.drop p, ¬ 0 < maskedScore training userF itemF u x := by
    intro x hx
    rw [← hdrop, List.mem_cons] at hx
    rcases hx with hx | hx
    · rw [hx, hie]; exact fun h => absurd h (not_lt.mpr hle)
    · rw [← hdrop, List.pairwise_cons] at hdrop_pair
      have hxle := hdrop_pair.1 x hx
      rw [hie] at hxle
      exact fun h => absurd (lt_of_lt_of_le h hxle) (not_lt.mpr hle)
  -- count positives
  have hcount : L.countP (fun j => 0 < maskedScore training userF itemF u j)
      = ((List.finRange I).filter fun i => 0 < maskedScore training userF itemF u i).length := by
    rw [← List.countP_eq_length_filter]
    exact (recItems_perm training userF itemF u).countP_eq _
  have hsplit : L.countP (fun j => 0 < maskedScore training userF itemF u j)
      = (L.take p).countP (fun j => 0 < maskedScore training userF itemF u j)
        + (L.drop p).countP (fun j => 0 < maskedScore training userF itemF u j) := by
    rw [← List.countP_append, List.take_append_drop]
  have hdrop0 : (L.drop p).countP (fun j => 0 < maskedScore training userF itemF u j) = 0 := by
    rw [List.countP_eq_zero]
    intro a ha
    simpa using hnonpos a ha
  have htake : (L.take p).countP (fun j => 0 < maskedScore training userF itemF u j) ≤ p := by
    refine le_trans (List.countP_le_length _) ?_
    rw [List.length_take]
    exact min_le_left _ _
  omega

/-- C9 (amended): for every user and every `num_items`, the recommendation
list has exactly `min num_items I` entries — `I` the total number of items,
irrespective of how many items are eligible — and is ordered by descending
masked min-max-scaled score. -/
theorem c9_amended {U I k : ℕ} (training : Matrix (Fin U) (Fin I) ℚ)
    (userF : Matrix (Fin U) (Fin k) ℚ) (itemF : Matrix (Fin k) (Fin I) ℚ) (u : Fin U)
    (numItems : ℕ) :
    (recItems training userF itemF u numItems).length = min numItems I ∧
    (recItems training userF itemF u numItems).Pairwise
      (fun a b => maskedScore training userF itemF u b ≤ maskedScore training userF itemF u a) := by
  constructor
  · have hlen : ((List.insertionSort
        (fun a b => maskedScore training userF itemF u a ≤ maskedScore training userF itemF u b)
        (List.finRange I)).reverse).length = I := by
      rw [List.length_reverse, (List.perm_insertionSort _ _).length_eq, List.length_finRange]
    show (List.take numItems _).length = min numItems I
    rw [List.length_take, hlen]
  · exact List.Pairwise.sublist (List.take_sublist _ _)
      (recItems_sorted_desc training userF itemF u)

theorem maskedScoreC8_zero : ∀ i, maskedScore trainingC8 userFC8 itemFC8 0 i = 0 := by
  intro i
  rw [maskedScore, prefMask]
  have h : trainingC8 0 i = 1 := by fin_cases i <;> decide
  rw [h]
  norm_num

theorem recItemsC8_eq : recItems trainingC8 userFC8 itemFC8 0 2 = [1, 0] := by
  have hfr : (List.finRange 2) = [0, 1] := by decide
  have hrec : recItems trainingC8 userFC8 itemFC8 0 2
      = ((List.insertionSort
          (fun a b => maskedScore trainingC8 userFC8 itemFC8 0 a
            ≤ maskedScore trainingC8 userFC8 itemFC8 0 b)
          (List.finRange 2)).reverse).take 2 := rfl
  rw [hrec, hfr]
  simp [List.insertionSort, List.orderedInsert, maskedScoreC8_zero]

/-- C8 counterexample: a user whose training row is `[1, 1]` (both items
already purchased) with `num_items = 2` receives both items as
recommendations — item 1 is returned although its training entry is
non-zero, because the returned list always has `min(num_items, I)` entries
and purchased items only have their score masked to zero, not removed. -/
theorem c8_counterexample :
    (1 : Fin 2) ∈ recItems trainingC8 userFC8 itemFC8 0 2 ∧ trainingC8 0 1 ≠ 0 := by
  constructor
  · rw [recItemsC8_eq]
    decide
  · decide

/-- C9 counterexample: on the same all-purchased instance the returned list
has 2 entries although the user has 0 items with a zero training entry, so
the count is not `min(num_items, number of zero-training items)`. -/
theorem c9_counterexample :
    (recItems trainingC8 userFC8 itemFC8 0 2).length
      ≠ min 2 (((List.finRange 2).filter fun i => trainingC8 0 i = 0).length) := by
  rw [recItemsC8_eq]
  have : ((List.finRange 2).filter fun i => trainingC8 0 i = 0) = [] := by decide
  rw [this]
  decide

theorem rawScoresC8w : ∀ i, rawScores userFC8 itemFC8 0 i = if i = 0 then 2 else 1 := by
  intro i
  fin_cases i <;> norm_num [rawScores, Fin.sum_univ_one, userFC8, itemFC8]

theorem scoreValsC8w : scoreVals userFC8 itemFC8 0 = [2, 1] := by
  have hfr : (List.finRange 2) = [0, 1] := by decide
  rw [scoreVals, hfr]
  simp [rawScoresC8w]

theorem scoreMinC8w : scoreMin userFC8 itemFC8 0 = 1 := by
  rw [scoreMin, scoreValsC8w]
  norm_num [min_def]

theorem scoreMaxC8w : scoreMax userFC8 itemFC8 0 = 2 := by
  rw [scoreMax, scoreValsC8w]
  norm_num [max_def]

theorem maskedScoreC8w : ∀ i, maskedScore trainingC8w userFC8 itemFC8 0 i
    = if i = 0 then 1 else 0 := by
  intro i
  rw [maskedScore, prefMask, scaledScores, scoreMinC8w, scoreMaxC8w]
  fin_cases i
  · rw [rawScoresC8w]
    norm_num [trainingC8w]
  · rw [rawScoresC8w]
    norm_num [trainingC8w]

/-- C8 witness: the amended claim instantiated on a user with training row
`[0, 1]` and `num_items = 1`: one item has a strictly positive masked score,
and the returned single recommendation has a zero training entry. -/
theorem c8_amended_witness :
    ((∀ i, 0 ≤ trainingC8w 0 i) ∧
      1 ≤ ((List.finRange 2).filter fun i =>
        0 < maskedScore trainingC8w userFC8 itemFC8 0 i).length) ∧
    ∀ i ∈ recItems trainingC8w userFC8 itemFC8 0 1, trainingC8w 0 i = 0 := by
  have h1 : ∀ i, (0:ℚ) ≤ trainingC8w 0 i := by intro i; fin_cases i <;> norm_num [trainingC8w]
  have h2 : 1 ≤ ((List.finRange 2).filter fun i =>
      0 < maskedScore trainingC8w userFC8 itemFC8 0 i).length := by
    have hfr : (List.finRange 2) = [0, 1] := by decide
    rw [hfr]
    simp [List.filter, maskedScoreC8w]
  exact ⟨⟨h1, h2⟩, c8_amended trainingC8w userFC8 itemFC8 0 1 h1 h2⟩
